import Mathlib

/-
Verification development for the coverage-gated test-generation pipeline
(repository vivekbisen04/LFXDemo).

The Go sources are shallowly embedded here:
  * strings are lists of characters (`Str`); the fragment of Go's `strings`
    package that the sources use (`Contains`, `HasPrefix`, `ReplaceAll`,
    `Split`, `TrimSpace`, `ToLower`) is modelled over `Str` with the same
    leftmost / non-overlapping / ASCII semantics;
  * `float64` coverage values and thresholds are modelled as rationals
    (the code only parses decimal literals and compares them);
  * effectful functions (`AnalyzeFile`, `CreateTestPR`, `createOrUpdateFile`)
    are modelled as pure functions of an environment describing the outcomes
    of their external calls (file system, test runner, hosting API); each
    returns its result together with the list of side effects it performed,
    in order.
-/

set_option maxHeartbeats 1000000
set_option maxRecDepth 4000

namespace LFX

/-- Strings are modelled as lists of characters. -/
abbrev Str := List Char

/-- The newline character. -/
def nl : Char := Char.ofNat 10

/-- The backtick character (the code-fence marker character). -/
def bq : Char := Char.ofNat 96

/-- The dot character. -/
def dotCh : Char := '.'

/-- Model of Go `strings.Contains s p`: `p` occurs as a contiguous substring
of `s`. -/
def goContains (p : Str) : Str → Bool
  | [] => p.isEmpty
  | s@(_ :: t) => p.isPrefixOf s || goContains p t

/-- Number of positions of `s` at which `p` starts an occurrence as a
substring (used to state "exactly one package declaration"). -/
def countPos (p : Str) : Str → Nat
  | [] => if p.isEmpty then 1 else 0
  | s@(_ :: t) => (if p.isPrefixOf s then 1 else 0) + countPos p t

/-- Fuel-indexed worker for `replaceAll`; the fuel is always instantiated
with the length of the string, which bounds the recursion depth. -/
def replaceAllF (p rep : Str) : Nat → Str → Str
  | 0, s => s
  | _ + 1, [] => []
  | f + 1, c :: t =>
    if !p.isEmpty && p.isPrefixOf (c :: t) then
      rep ++ replaceAllF p rep f ((c :: t).drop p.length)
    else
      c :: replaceAllF p rep f t

/-- Model of Go `strings.ReplaceAll s p rep` for a nonempty pattern:
leftmost, non-overlapping replacement of every occurrence. -/
def replaceAll (p rep s : Str) : Str := replaceAllF p rep s.length s

/-- Model of Go `strings.Split s sep` for a one-character separator. -/
def splitCh (sep : Char) : Str → List Str
  | [] => [[]]
  | c :: t =>
    if c = sep then [] :: splitCh sep t
    else
      match splitCh sep t with
      | [] => [[c]]
      | h :: r => (c :: h) :: r

/-- Model of Go `strings.Split s "\n"`. -/
def splitNl (s : Str) : List Str := splitCh nl s

/-- Concatenation of lines, each followed by a newline (the shape produced
by the `result.WriteString(line + "\n")` loop in `cleanupGeneratedCode`). -/
def joinNl : List Str → Str
  | [] => []
  | l :: ls => l ++ nl :: joinNl ls

/-- Number of leading backticks of a string (the measure that shows the
fence-stripping pass leaves no three consecutive backticks). -/
def leadTicks : Str → Nat
  | [] => 0
  | c :: t => if c = bq then leadTicks t + 1 else 0

/-- ASCII fragment of Go `unicode.IsUpper`: code point in `[65, 90]`. -/
def isUpperA (c : Char) : Bool := decide (65 ≤ c.toNat ∧ c.toNat ≤ 90)

/-- ASCII fragment of Go `unicode.ToLower`: shift an upper-case letter down
by 32, leave everything else unchanged. -/
def lowerChar (c : Char) : Char :=
  if 65 ≤ c.toNat ∧ c.toNat ≤ 90 then Char.ofNat (c.toNat + 32) else c

/-- ASCII fragment of Go `unicode.IsSpace`. -/
def isSpaceCh (c : Char) : Bool :=
  c = ' ' || c = '\t' || c = nl || c = '\r' || c = Char.ofNat 11 || c = Char.ofNat 12

/-- Left part of Go `strings.TrimSpace`. -/
def trimLeftS (s : Str) : Str := s.dropWhile isSpaceCh

/-- Right part of Go `strings.TrimSpace`. -/
def trimRightS (s : Str) : Str := (s.reverse.dropWhile isSpaceCh).reverse

/-- Model of Go `strings.TrimSpace` (ASCII whitespace). -/
def trimSpaceS (s : Str) : Str := trimLeftS (trimRightS s)

/- ----------------------------------------------------------------
Coverage analyzer (src/scripts/coverage-analyzer.go and its duplicate
src/unnamed/part_002): AnalyzeFile and parseCoverageOutput.
---------------------------------------------------------------- -/

/-- Literal `"coverage: "` of the coverage regular expression. -/
def coverKey : Str := ("coverage: ").data

/-- Literal `"% of statements"` of the coverage regular expression. -/
def coverTail : Str := ("% of statements").data

/-- Literal `"no test files"`, the no-tests marker probed on runner failure. -/
def noTestFiles : Str := ("no test files").data

/-- Greedy match of `coverage: (\d+\.?\d*)% of statements` anchored at the
start of `s`, returning the captured group.  For this pattern, greedy
maximal-munch matching agrees with the leftmost-first semantics of Go's
`regexp` package: shortening `\d+` or `\d*` leaves a digit where `%` or `.`
is required, and dropping an available `.` leaves a `.` where `%` is
required, so no backtracking alternative can succeed where the greedy
parse fails. -/
def tryMatchAt (s : Str) : Option Str :=
  if coverKey.isPrefixOf s then
    let s1 := s.drop coverKey.length
    let ds := s1.takeWhile Char.isDigit
    if ds.isEmpty then none
    else
      match s1.dropWhile Char.isDigit with
      | c :: r2 =>
        if c = dotCh then
          let fs := r2.takeWhile Char.isDigit
          if coverTail.isPrefixOf (r2.dropWhile Char.isDigit) then some (ds ++ c :: fs)
          else none
        else if coverTail.isPrefixOf (c :: r2) then some ds
        else none
      | [] => none
  else none

/-- Leftmost match of the coverage pattern in `out` (Go
`re.FindStringSubmatch`), returning the captured percentage text. -/
def findCoverageMatch : Str → Option Str
  | [] => none
  | s@(_ :: t) =>
    match tryMatchAt s with
    | some r => some r
    | none => findCoverageMatch t

/-- Numeric value of a decimal digit character. -/
def digitVal (c : Char) : Nat := c.toNat - 48

/-- Value of a digit string. -/
def digitsVal (s : Str) : Nat := s.foldl (fun a c => 10 * a + digitVal c) 0

/-- Model of Go `strconv.ParseFloat` restricted to the token shapes
`\d+` and `\d+.\d*` that the coverage regular expression can capture
(the parsed value is modelled exactly, as a rational). -/
def parseDecimal (s : Str) : Option ℚ :=
  let ip := s.takeWhile Char.isDigit
  if ip.isEmpty then none
  else
    match s.dropWhile Char.isDigit with
    | [] => some (digitsVal ip)
    | c :: fr =>
      if c = dotCh && fr.all Char.isDigit then
        some (digitsVal ip + digitsVal fr / (10 : ℚ) ^ fr.length)
      else none

/-- Error outcomes of `AnalyzeFile`. -/
inductive AnalyzeErr
  | toolFailure
  | parseFailure
  | chdirFailure
  deriving DecidableEq

/-- Result of `AnalyzeFile`: either `(needsTests, coverage)` with no error,
or an error. -/
inductive CoverOutcome
  | ok (needsTests : Bool) (coverage : ℚ)
  | err (e : AnalyzeErr)
  deriving DecidableEq

/-- Shallow embedding of `parseCoverageOutput`: no match is "assume 0%"
with no error; a match is parsed (the parse-failure branch of the source is
kept although no capturable token makes the model's parser fail). -/
def parseCoverageOutput (out : Str) : Except Unit ℚ :=
  match findCoverageMatch out with
  | none => Except.ok 0
  | some tok =>
    match parseDecimal tok with
    | some q => Except.ok q
    | none => Except.error ()

/-- Outcome of the `go test -cover` subprocess: combined output plus
whether the invocation returned an error. -/
inductive RunnerResult
  | success (output : Str)
  | failure (output : Str)
  deriving DecidableEq

/-- Observable side effects of `AnalyzeFile`, in program order. -/
inductive Effect
  | runRunner
  | removeCoverageOut
  | chdirToPackage
  | chdirBack
  deriving DecidableEq

/-- Environment of the scripts-directory `AnalyzeFile`
(src/scripts/coverage-analyzer.go): whether the adjacent `_test.go` file
exists, and what the runner does if invoked. -/
structure ScriptsEnv where
  testFileExists : Bool
  runner : RunnerResult
  deriving DecidableEq

/-- Shallow embedding of `AnalyzeFile` from src/scripts/coverage-analyzer.go.
Control flow: missing adjacent test file short-circuits to
`(true, 0, nil)`; a failing runner returns `(true, 0, nil)` exactly when the
output contains the no-tests marker and a tool failure otherwise; on success
the output is parsed, `coverage.out` is removed only after a successful
parse, and `needsTests = coverage < threshold`. -/
def analyzeFileScripts (env : ScriptsEnv) (threshold : ℚ) :
    CoverOutcome × List Effect :=
  if env.testFileExists = false then (CoverOutcome.ok true 0, [])
  else
    match env.runner with
    | RunnerResult.failure out =>
      if goContains noTestFiles out then (CoverOutcome.ok true 0, [Effect.runRunner])
      else (CoverOutcome.err AnalyzeErr.toolFailure, [Effect.runRunner])
    | RunnerResult.success out =>
      match parseCoverageOutput out with
      | Except.error _ => (CoverOutcome.err AnalyzeErr.parseFailure, [Effect.runRunner])
      | Except.ok cov =>
        (CoverOutcome.ok (decide (cov < threshold)) cov,
         [Effect.runRunner, Effect.removeCoverageOut])

/-- Environment of the duplicated `AnalyzeFile` (src/unnamed/part_002),
which additionally changes the working directory around the runner
invocation; `chdirOk` collapses the `Getwd`/`Abs`/`Chdir` preparatory steps,
all of which exit before the runner is invoked when they fail. -/
structure DupEnv where
  testFileExists : Bool
  chdirOk : Bool
  runner : RunnerResult
  deriving DecidableEq

/-- Shallow embedding of `AnalyzeFile` from src/unnamed/part_002: after a
successful chdir a deferred handler restores the working directory and then
removes `coverage.out`, so both cleanup effects run on every exit path that
invoked the runner. -/
def analyzeFileDup (env : DupEnv) (threshold : ℚ) :
    CoverOutcome × List Effect :=
  if env.testFileExists = false then (CoverOutcome.ok true 0, [])
  else if env.chdirOk = false then (CoverOutcome.err AnalyzeErr.chdirFailure, [])
  else
    let pre := [Effect.chdirToPackage, Effect.runRunner]
    let post := [Effect.chdirBack, Effect.removeCoverageOut]
    match env.runner with
    | RunnerResult.failure out =>
      if goContains noTestFiles out then (CoverOutcome.ok true 0, pre ++ post)
      else (CoverOutcome.err AnalyzeErr.toolFailure, pre ++ post)
    | RunnerResult.success out =>
      match parseCoverageOutput out with
      | Except.error _ => (CoverOutcome.err AnalyzeErr.parseFailure, pre ++ post)
      | Except.ok cov =>
        (CoverOutcome.ok (decide (cov < threshold)) cov, pre ++ post)

/- ----------------------------------------------------------------
Function extractor (src/scripts/coverage-analyzer.go):
ExtractModifiedFunctions and shouldIncludeFunction.
---------------------------------------------------------------- -/

/-- The reserved test prefix. -/
def testPre : Str := ("Test").data

/-- The reserved benchmark prefix. -/
def benchPre : Str := ("Benchmark").data

/-- A parsed function declaration as the extractor sees it: its name and,
when present, its body as the list of top-level statements (only the
statement count is inspected, so statements are opaque).  The verbatim
source slice and line positions carried by `FunctionInfo` are orthogonal to
the selection logic and are not modelled.  The parser never produces a
`nil` name, so the defensive `fn.Name == nil` guard of
`shouldIncludeFunction` is dropped. -/
structure FuncDecl where
  name : Str
  body : Option (List Unit)
  deriving DecidableEq

/-- Go `ast.IsExported` / `token.IsExported`: the first character is upper
case (ASCII fragment of `unicode.IsUpper`). -/
def isExported : Str → Bool
  | [] => false
  | c :: _ => isUpperA c

/-- Shallow embedding of `shouldIncludeFunction`: reject reserved
test/benchmark prefixes, then reject declarations whose (present) body has
fewer than 3 top-level statements. -/
def shouldIncludeFunction (fn : FuncDecl) : Bool :=
  if testPre.isPrefixOf fn.name || benchPre.isPrefixOf fn.name then false
  else
    match fn.body with
    | some stmts => if stmts.length < 3 then false else true
    | none => true

/-- Shallow embedding of the selection performed by
`ExtractModifiedFunctions`: a declaration is kept when it is exported or
passes `shouldIncludeFunction`, in source order. -/
def extractModifiedFunctions (decls : List FuncDecl) : List FuncDecl :=
  decls.filter (fun fn => isExported fn.name || shouldIncludeFunction fn)

/- ----------------------------------------------------------------
Branch naming (src/scripts/main.go): createBranchName, with a model of
path/filepath.Dir (Unix rules) including filepath.Clean.
---------------------------------------------------------------- -/

/-- The path separator. -/
def slashCh : Char := '/'

/-- The dash character. -/
def dashCh : Char := '-'

/-- The underscore character. -/
def underscoreCh : Char := '_'

/-- The string `"."`. -/
def dotStr : Str := (".").data

/-- The string `".."`. -/
def dotDotStr : Str := ("..").data

/-- Everything up to and including the last separator of `path` (the slice
`path[:i+1]` that Go `filepath.Dir` hands to `Clean`). -/
def dirSlice (path : Str) : Str :=
  (path.reverse.dropWhile (fun c => c ≠ slashCh)).reverse

/-- Join path elements with separators. -/
def joinSlash : List Str → Str
  | [] => []
  | [e] => e
  | e :: r => e ++ slashCh :: joinSlash r

/-- Lexical `..`/element processing of Go `filepath.Clean`: an element is
pushed, `..` pops a poppable element, is dropped at the root, and is kept
when there is nothing to pop in a relative path. -/
def cleanElems (rooted : Bool) (elems : List Str) : List Str :=
  (elems.foldl
    (fun st e =>
      if e = dotDotStr then
        match st with
        | [] => if rooted then [] else [e]
        | top :: rest => if top = dotDotStr then e :: st else rest
      else e :: st)
    []).reverse

/-- Model of Go `path/filepath.Clean` on Unix: empty path is `.`; empty and
`.` elements are dropped; `..` is resolved lexically; the result keeps the
leading separator of a rooted path and is `.` (or `/`) when nothing
remains. -/
def pathClean (p : Str) : Str :=
  if p.isEmpty then dotStr
  else
    let rooted := decide (p.head? = some slashCh)
    let elems := (splitCh slashCh p).filter (fun e => !e.isEmpty && e ≠ dotStr)
    let body := joinSlash (cleanElems rooted elems)
    if rooted then (if body.isEmpty then [slashCh] else slashCh :: body)
    else (if body.isEmpty then dotStr else body)

/-- Model of Go `path/filepath.Dir` on Unix. -/
def filepathDir (path : Str) : Str := pathClean (dirSlice path)

/-- Model of Go `strings.ToLower` (ASCII fragment). -/
def goToLower (s : Str) : Str := s.map lowerChar

/-- Shallow embedding of `createBranchName` from src/scripts/main.go. -/
def createBranchName (filePath : Str) : Str :=
  let dir := filepathDir filePath
  if dir = dotStr then ("auto-tests-root").data
  else
    ("auto-tests-").data ++
      goToLower (replaceAll [underscoreCh] [dashCh] (replaceAll [slashCh] [dashCh] dir))

/- ----------------------------------------------------------------
Change publisher (src/unnamed/part_003): CreateTestPR and
createOrUpdateFile, modelled over an environment describing the hosting
API's responses.  Failed lookups carry the HTTP status code of the
response, which is what the source inspects.
---------------------------------------------------------------- -/

/-- Remote API calls performed by the publisher, in program order.
`createRef` records the commit the new branch points at; `createFile` and
`updateFile` record the content-hash (SHA) precondition they supply. -/
inductive GitAct
  | getMainRef
  | getBranchRef
  | deleteRef
  | createRef (sha : Nat)
  | getContents
  | createFile (sha : Option Nat)
  | updateFile (sha : Option Nat)
  | createPR
  deriving DecidableEq

/-- Errors of `createOrUpdateFile`. -/
inductive FileErr
  | checkFileErr
  | createFileErr
  | updateFileErr
  deriving DecidableEq

/-- Errors of `CreateTestPR`; `fileStep` wraps an error of the file upsert
step. -/
inductive PRErr
  | getMainRefErr
  | checkBranchErr
  | deleteBranchErr
  | createBranchErr
  | fileStep (e : FileErr)
  | prCreateErr
  deriving DecidableEq

/-- Outcome of the branch-existence lookup: success, or an error response
with its HTTP status (404 meaning not found). -/
inductive BranchLookup
  | ok
  | err (status : Nat)
  deriving DecidableEq

/-- Outcome of the remote file lookup: the existing file's content hash, or
an error response with its HTTP status (404 meaning not found). -/
inductive FileLookup
  | found (sha : Nat)
  | err (status : Nat)
  deriving DecidableEq

/-- Environment describing every remote response `CreateTestPR` and
`createOrUpdateFile` can observe. -/
structure GHEnv where
  mainRef : Option Nat
  branchLookup : BranchLookup
  deleteOk : Bool
  createRefOk : Bool
  fileLookup : FileLookup
  createFileOk : Bool
  updateFileOk : Bool
  createPROk : Bool
  deriving DecidableEq

/-- Shallow embedding of `createOrUpdateFile`: a 404 lookup creates the
file with no SHA precondition; a successful lookup updates it passing the
existing file's SHA; any other lookup error is fatal. -/
def createOrUpdateFile (env : GHEnv) : Except FileErr Unit × List GitAct :=
  match env.fileLookup with
  | FileLookup.err s =>
    if s = 404 then
      if env.createFileOk then (Except.ok (), [GitAct.getContents, GitAct.createFile none])
      else (Except.error FileErr.createFileErr, [GitAct.getContents, GitAct.createFile none])
    else (Except.error FileErr.checkFileErr, [GitAct.getContents])
  | FileLookup.found sha =>
    if env.updateFileOk then (Except.ok (), [GitAct.getContents, GitAct.updateFile (some sha)])
    else
      (Except.error FileErr.updateFileErr, [GitAct.getContents, GitAct.updateFile (some sha)])

/-- Continuation of `CreateTestPR` after the branch-existence check:
create the branch at the main head, upsert the file, open the pull
request. -/
def afterBranchCheck (env : GHEnv) (mainSha : Nat) (acts : List GitAct) :
    Except PRErr Unit × List GitAct :=
  if env.createRefOk then
    let acts2 := acts ++ [GitAct.createRef mainSha]
    let fr := createOrUpdateFile env
    match fr.1 with
    | Except.error e => (Except.error (PRErr.fileStep e), acts2 ++ fr.2)
    | Except.ok _ =>
      if env.createPROk then (Except.ok (), acts2 ++ fr.2 ++ [GitAct.createPR])
      else (Except.error PRErr.prCreateErr, acts2 ++ fr.2 ++ [GitAct.createPR])
  else (Except.error PRErr.createBranchErr, acts ++ [GitAct.createRef mainSha])

/-- Shallow embedding of `CreateTestPR`: resolve the main head; check the
branch (delete it when present, continue on 404, fail on any other status);
then create the branch, upsert the file and open the pull request. -/
def createTestPR (env : GHEnv) : Except PRErr Unit × List GitAct :=
  match env.mainRef with
  | none => (Except.error PRErr.getMainRefErr, [GitAct.getMainRef])
  | some mainSha =>
    let pre := [GitAct.getMainRef, GitAct.getBranchRef]
    match env.branchLookup with
    | BranchLookup.ok =>
      if env.deleteOk then afterBranchCheck env mainSha (pre ++ [GitAct.deleteRef])
      else (Except.error PRErr.deleteBranchErr, pre ++ [GitAct.deleteRef])
    | BranchLookup.err s =>
      if s = 404 then afterBranchCheck env mainSha pre
      else (Except.error PRErr.checkBranchErr, pre)

/- ----------------------------------------------------------------
Generated-code cleanup (src/unnamed/part_004): cleanupGeneratedCode.
---------------------------------------------------------------- -/

/-- The keyword of a package declaration, with its trailing space. -/
def pkgSp : Str := ("package ").data

/-- The testing-framework import reference probed by the cleanup. -/
def testingQ : Str := ("\"testing\"").data

/-- The inserted import statement. -/
def importKw : Str := ("import \"testing\"").data

/-- The fenced code-block opener with language tag. -/
def fenceGo : Str := ("```go").data

/-- The code-fence marker. -/
def fence : Str := ("```").data

/-- The two `strings.ReplaceAll` passes that strip code-fence markup. -/
def stripFences (raw : Str) : Str := replaceAll fence [] (replaceAll fenceGo [] raw)

/-- The line loop that inserts `import "testing"` immediately after the
first line whose trimmed text starts with the package keyword. -/
def insertLoop : List Str → Bool → Str
  | [], _ => []
  | l :: ls, added =>
    if pkgSp.isPrefixOf (trimSpaceS l) && !added then
      l ++ [nl] ++ [nl] ++ importKw ++ [nl] ++ insertLoop ls true
    else
      l ++ [nl] ++ insertLoop ls added

/-- The testing-import insertion pass of `cleanupGeneratedCode`. -/
def insertTesting (s : Str) : Str := insertLoop (splitNl s) false

/-- Shallow embedding of `cleanupGeneratedCode`: strip code fences, prepend
a package declaration when the text has no `"package "` substring, insert
the testing import when the text has no `"testing"` reference, and trim
surrounding whitespace.  The unused imports argument of the source is
dropped. -/
def cleanupGeneratedCode (generatedCode packageName : Str) : Str :=
  let g2 := stripFences generatedCode
  let g3 := if goContains pkgSp g2 then g2 else pkgSp ++ packageName ++ [nl, nl] ++ g2
  let g4 := if goContains testingQ g3 then g3 else insertTesting g3
  trimSpaceS g4

/- ----------------------------------------------------------------
Concrete inputs used by witness and counterexample theorems.
---------------------------------------------------------------- -/

/-- Concrete runner output for the claim C2 witness. -/
def wOutC2 : Str := ("ok  \tdemo\t0.5s\tcoverage: 55.5% of statements").data

/-- Concrete environment for the claim C2 witness. -/
def wEnvC2 : ScriptsEnv := ⟨true, RunnerResult.success wOutC2⟩

/-- Concrete environment for the claim C6 witness. -/
def wEnvC6 : ScriptsEnv := ⟨false, RunnerResult.success []⟩

/-- Concrete environment for the claim C7 witness: the runner fails and its
output contains the no-tests marker. -/
def wEnvC7 : ScriptsEnv :=
  ⟨true, RunnerResult.failure (("?   \tdemo\t[no test files]").data)⟩

/-- Concrete environment refuting claim C8 on the scripts analyzer: the
runner fails for a reason other than missing tests. -/
def cexEnvC8 : ScriptsEnv := ⟨true, RunnerResult.failure (("build failed").data)⟩

/-- Concrete duplicated-analyzer environment for the claim C8 witness. -/
def wEnvC8d : DupEnv := ⟨true, true, RunnerResult.failure (("build failed").data)⟩

/-- Concrete declaration refuting claim C1: an (exported) test function
with a two-statement body. -/
def declTestFoo : FuncDecl := ⟨("TestFoo").data, some [(), ()]⟩

/-- Concrete non-exported two-statement declaration for the claim C9
witness. -/
def declSmallC9 : FuncDecl := ⟨("helper").data, some [(), ()]⟩

/-- Concrete exported empty-body declaration for the claim C9 witness. -/
def declExpC9 : FuncDecl := ⟨("Add").data, some []⟩

/-- Concrete declaration list for the claim C9 witness. -/
def declsC9 : List FuncDecl := [declSmallC9, declExpC9]

/-- Concrete publisher environment for the claim C4 witness: the branch
already exists and every later step succeeds. -/
def wEnvC4 : GHEnv :=
  ⟨some 7, BranchLookup.ok, true, true, FileLookup.err 404, true, true, true⟩

/-- Concrete publisher environment for the claim C4 witness: the branch
lookup fails with a non-404 status. -/
def wEnvC4b : GHEnv :=
  ⟨some 7, BranchLookup.err 500, true, true, FileLookup.err 404, true, true, true⟩

/-- Concrete publisher environment for the claim C5 witness: the remote
file lookup returns not-found. -/
def wEnvC5 : GHEnv :=
  ⟨some 7, BranchLookup.err 404, true, true, FileLookup.err 404, true, true, true⟩

/-- Concrete publisher environment for the claim C5 witness: the remote
file exists with content hash 9. -/
def wEnvC5b : GHEnv :=
  ⟨some 7, BranchLookup.err 404, true, true, FileLookup.found 9, true, true, true⟩

/- ----------------------------------------------------------------
Theorems.  First, helper lemmas about the string models.
---------------------------------------------------------------- -/

theorem parseDecimal_tryMatchAt (s tok : Str) (h : tryMatchAt s = some tok) :
    ∃ q : ℚ, parseDecimal tok = some q := by
  unfold tryMatchAt at h
  split at h
  · set s1 := s.drop coverKey.length with hs1
    by_cases hds : (s1.takeWhile Char.isDigit).isEmpty
    · simp only [hds, if_true] at h
      exact absurd h (by simp)
    · simp only [hds, if_false, Bool.false_eq_true] at h
      have hdsall : ∀ x ∈ s1.takeWhile Char.isDigit, Char.isDigit x :=
        fun x hx => List.mem_takeWhile_imp hx
      have hdsne : s1.takeWhile Char.isDigit ≠ [] := by
        simpa [List.isEmpty_iff] using hds
      rcases hr : s1.dropWhile Char.isDigit with _ | ⟨c, r2⟩
      · rw [hr] at h; exact absurd h (by simp)
      · rw [hr] at h
        by_cases hc : c = dotCh
        · simp only [hc, if_true] at h
          split at h
          · cases h
            have hps : parseDecimal
                (s1.takeWhile Char.isDigit ++ dotCh :: r2.takeWhile Char.isDigit) =
                some ((digitsVal (s1.takeWhile Char.isDigit) : ℚ) +
                  digitsVal (r2.takeWhile Char.isDigit) /
                    (10 : ℚ) ^ (r2.takeWhile Char.isDigit).length) := by
              unfold parseDecimal
              have hdot : ¬ Char.isDigit dotCh := by decide
              rw [List.takeWhile_append_of_pos hdsall,
                List.takeWhile_cons_of_neg hdot,
                List.dropWhile_append_of_pos hdsall,
                List.dropWhile_cons_of_neg hdot]
              have hfs : (r2.takeWhile Char.isDigit).all Char.isDigit = true :=
                List.all_eq_true.mpr fun x hx => List.mem_takeWhile_imp hx
              simp [List.isEmpty_eq_false.mpr hdsne, hfs]
            exact ⟨_, hps⟩
          · exact absurd h (by simp)
        · simp only [hc, if_false] at h
          split at h
          · cases h
            have hps : parseDecimal (s1.takeWhile Char.isDigit) =
                some ((digitsVal (s1.takeWhile Char.isDigit) : ℚ)) := by
              unfold parseDecimal
              rw [List.takeWhile_idem]
              have hdrop : (s1.takeWhile Char.isDigit).dropWhile Char.isDigit = [] :=
                List.dropWhile_eq_nil_iff.mpr hdsall
              rw [hdrop]
              simp [List.isEmpty_eq_false.mpr hdsne]
            exact ⟨_, hps⟩
          · exact absurd h (by simp)
  · exact absurd h (by simp)

theorem findCoverageMatch_total (out tok : Str) (h : findCoverageMatch out = some tok) :
    ∃ q : ℚ, parseDecimal tok = some q := by
  induction out with
  | nil => exact absurd h (by simp [findCoverageMatch])
  | cons c t ih =>
    unfold findCoverageMatch at h
    rcases ht : tryMatchAt (c :: t) with _ | r
    · rw [ht] at h
      exact ih h
    · rw [ht] at h
      cases h
      exact parseDecimal_tryMatchAt _ _ ht

/- ----------------------------------------------------------------
Claims C2, C6, C7 about AnalyzeFile (src/scripts/coverage-analyzer.go), and
claim C8 about its cleanup discipline in both copies of the analyzer.
---------------------------------------------------------------- -/

/-- Claim C2: for every threshold `t` and every run of `AnalyzeFile` in
which the test runner succeeds and its output contains a percentage
matching the fixed pattern `coverage: (\d+\.?\d*)% of statements`, the
returned `needsTests` equals `(parsed coverage < t)` and the returned
coverage equals the parsed percentage. -/
theorem analyzeFile_threshold_spec (env : ScriptsEnv) (t : ℚ) (out tok : Str)
    (hfile : env.testFileExists = true)
    (hrun : env.runner = RunnerResult.success out)
    (hmatch : findCoverageMatch out = some tok) :
    ∃ q : ℚ, parseDecimal tok = some q ∧
      (analyzeFileScripts env t).1 = CoverOutcome.ok (decide (q < t)) q := by
  obtain ⟨q, hq⟩ := findCoverageMatch_total out tok hmatch
  refine ⟨q, hq, ?_⟩
  simp [analyzeFileScripts, hfile, hrun, parseCoverageOutput, hmatch, hq]

/-- Witness for claim C2 at a concrete run. -/
theorem analyzeFile_threshold_spec_witness :
    findCoverageMatch wOutC2 = some (("55.5").data) ∧
    ∃ q : ℚ, parseDecimal (("55.5").data) = some q ∧
      (analyzeFileScripts wEnvC2 40).1 = CoverOutcome.ok (decide (q < 40)) q :=
  ⟨by decide, analyzeFile_threshold_spec wEnvC2 40 wOutC2 (("55.5").data) rfl rfl (by decide)⟩

/-- Claim C6: for every file path with no adjacent test artifact,
`AnalyzeFile` returns `needsTests = true`, `coverage = 0` and no error,
without invoking the external test runner. -/
theorem analyzeFile_noTestFile_spec (env : ScriptsEnv) (t : ℚ)
    (h : env.testFileExists = false) :
    analyzeFileScripts env t = (CoverOutcome.ok true 0, []) ∧
    Effect.runRunner ∉ (analyzeFileScripts env t).2 := by
  refine ⟨by simp [analyzeFileScripts, h], ?_⟩
  simp [analyzeFileScripts, h]

/-- Witness for claim C6 at a concrete run. -/
theorem analyzeFile_noTestFile_spec_witness :
    analyzeFileScripts wEnvC6 40 = (CoverOutcome.ok true 0, []) ∧
    Effect.runRunner ∉ (analyzeFileScripts wEnvC6 40).2 :=
  analyzeFile_noTestFile_spec wEnvC6 40 rfl

/-- Claim C7: whenever the test runner invocation fails, `AnalyzeFile`
returns `needsTests = true`, `coverage = 0` and no error exactly when the
runner's output contains the `no test files` marker; for every other
runner failure it returns the tool-failure error, and it never returns a
successful tests-unneeded verdict. -/
theorem analyzeFile_runnerFailure_spec (env : ScriptsEnv) (t : ℚ) (out : Str)
    (hfile : env.testFileExists = true)
    (hrun : env.runner = RunnerResult.failure out) :
    ((analyzeFileScripts env t).1 = CoverOutcome.ok true 0 ↔
       goContains noTestFiles out = true) ∧
    (goContains noTestFiles out = false →
       (analyzeFileScripts env t).1 = CoverOutcome.err AnalyzeErr.toolFailure) ∧
    (∀ q : ℚ, (analyzeFileScripts env t).1 ≠ CoverOutcome.ok false q) := by
  by_cases hmark : goContains noTestFiles out = true
  · refine ⟨by simp [analyzeFileScripts, hfile, hrun, hmark], ?_, ?_⟩
    · intro hfalse; rw [hmark] at hfalse; cases hfalse
    · intro q; simp [analyzeFileScripts, hfile, hrun, hmark]
  · have hmark' : goContains noTestFiles out = false := by
      simpa using hmark
    refine ⟨?_, ?_, ?_⟩
    · simp [analyzeFileScripts, hfile, hrun, hmark']
    · intro _; simp [analyzeFileScripts, hfile, hrun, hmark']
    · intro q; simp [analyzeFileScripts, hfile, hrun, hmark']

/-- Witness for claim C7 at a concrete run. -/
theorem analyzeFile_runnerFailure_spec_witness :
    ((analyzeFileScripts wEnvC7 40).1 = CoverOutcome.ok true 0 ↔
       goContains noTestFiles (("?   \tdemo\t[no test files]").data) = true) ∧
    (goContains noTestFiles (("?   \tdemo\t[no test files]").data) = false →
       (analyzeFileScripts wEnvC7 40).1 = CoverOutcome.err AnalyzeErr.toolFailure) ∧
    (∀ q : ℚ, (analyzeFileScripts wEnvC7 40).1 ≠ CoverOutcome.ok false q) :=
  analyzeFile_runnerFailure_spec wEnvC7 40 _ rfl rfl

/-- Claim C8 counterexample: in src/scripts/coverage-analyzer.go the
runner-failure exit path performs no removal of the coverage artifact
(`os.Remove("coverage.out")` is only reached after a successful parse), so
the claim that the artifact is removed on every exit path that invoked the
runner is false. -/
theorem analyzeFile_cleanup_cex :
    Effect.runRunner ∈ (analyzeFileScripts cexEnvC8 40).2 ∧
    Effect.removeCoverageOut ∉ (analyzeFileScripts cexEnvC8 40).2 := by
  decide

/-- Claim C8 (amended): in the duplicated analyzer (src/unnamed/part_002)
every exit path on which the runner was invoked ends by restoring the
working directory and then removing the coverage artifact; in the scripts
analyzer (src/scripts/coverage-analyzer.go), which changes no working
directory, the artifact is removed on no runner-failure exit path. -/
theorem analyzeFile_cleanup_discipline (e1 : ScriptsEnv) (e2 : DupEnv) (t : ℚ) :
    (Effect.runRunner ∈ (analyzeFileDup e2 t).2 →
       ∃ pre, (analyzeFileDup e2 t).2 = pre ++ [Effect.chdirBack, Effect.removeCoverageOut]) ∧
    (∀ out, e1.testFileExists = true → e1.runner = RunnerResult.failure out →
       Effect.removeCoverageOut ∉ (analyzeFileScripts e1 t).2) := by
  constructor
  · intro hrun
    refine ⟨[Effect.chdirToPackage, Effect.runRunner], ?_⟩
    unfold analyzeFileDup at *
    by_cases h1 : e2.testFileExists = false
    · simp [h1] at hrun
    · simp only [h1, if_false] at hrun ⊢
      by_cases h2 : e2.chdirOk = false
      · simp [h2] at hrun
      · simp only [h2, if_false] at hrun ⊢
        rcases e2.runner with out | out
        · rcases hp : parseCoverageOutput out with q | u <;> simp [hp]
        · by_cases hm : goContains noTestFiles out = true <;> simp [hm]
  · intro out h1 h2
    by_cases hm : goContains noTestFiles out = true <;>
      simp [analyzeFileScripts, h1, h2, hm]

/-- Witness for the amended claim C8 at concrete runs of both analyzers. -/
theorem analyzeFile_cleanup_discipline_witness :
    (Effect.runRunner ∈ (analyzeFileDup wEnvC8d 40).2 →
       ∃ pre, (analyzeFileDup wEnvC8d 40).2 =
         pre ++ [Effect.chdirBack, Effect.removeCoverageOut]) ∧
    Effect.removeCoverageOut ∉ (analyzeFileScripts cexEnvC8 40).2 :=
  ⟨(analyzeFile_cleanup_discipline cexEnvC8 wEnvC8d 40).1,
   (analyzeFile_cleanup_discipline cexEnvC8 wEnvC8d 40).2 (("build failed").data) rfl rfl⟩

/- ----------------------------------------------------------------
Claims C1 and C9 about the function extractor.
---------------------------------------------------------------- -/

/-- Claim C1 (code bug): the extractor is claimed never to return a
descriptor whose name starts with the reserved `Test`/`Benchmark` prefix,
and `shouldIncludeFunction` indeed rejects such names — but every such name
starts with an upper-case letter, so `fn.Name.IsExported()` short-circuits
the filter and the declaration is returned anyway.  Evaluated at a file
declaring `func TestFoo` with a two-statement body. -/
theorem extract_includes_testPrefixed_cex :
    extractModifiedFunctions [declTestFoo] = [declTestFoo] ∧
    testPre.isPrefixOf declTestFoo.name = true ∧
    shouldIncludeFunction declTestFoo = false := by
  decide

/-- Claim C9: for every parseable input file, the extractor excludes every
non-exported declaration whose body has fewer than 3 top-level statements,
and includes every exported declaration regardless of its body size. -/
theorem extract_filter_spec (decls : List FuncDecl) (fn : FuncDecl)
    (hmem : fn ∈ decls) :
    (∀ stmts, isExported fn.name = false → fn.body = some stmts →
       stmts.length < 3 → fn ∉ extractModifiedFunctions decls) ∧
    (isExported fn.name = true → fn ∈ extractModifiedFunctions decls) := by
  constructor
  · intro stmts hexp hbody hlen hin
    rw [extractModifiedFunctions, List.mem_filter] at hin
    rcases hin with ⟨_, hcond⟩
    rw [hexp, Bool.false_or] at hcond
    unfold shouldIncludeFunction at hcond
    split at hcond
    · cases hcond
    · rw [hbody] at hcond
      simp only [hlen, if_true] at hcond
      cases hcond
  · intro hexp
    rw [extractModifiedFunctions, List.mem_filter]
    exact ⟨hmem, by rw [hexp, Bool.true_or]⟩

/-- Witness for claim C9: a non-exported two-statement declaration is
dropped and an exported empty-body declaration is kept. -/
theorem extract_filter_spec_witness :
    declSmallC9 ∉ extractModifiedFunctions declsC9 ∧
    declExpC9 ∈ extractModifiedFunctions declsC9 :=
  ⟨(extract_filter_spec declsC9 declSmallC9 (by decide)).1 [(), ()] (by decide) rfl
     (by decide),
   (extract_filter_spec declsC9 declExpC9 (by decide)).2 (by decide)⟩

/- ----------------------------------------------------------------
Claims C4 and C5 about the change publisher.
---------------------------------------------------------------- -/

theorem afterBranchCheck_trace (env : GHEnv) (m : Nat) (acts : List GitAct) :
    ∃ rest, (afterBranchCheck env m acts).2 = acts ++ GitAct.createRef m :: rest := by
  unfold afterBranchCheck
  by_cases hc : env.createRefOk = true
  · simp only [hc, if_true]
    rcases hf : (createOrUpdateFile env).1 with u | e
    · exact ⟨(createOrUpdateFile env).2, by simp [hf]⟩
    · by_cases hp : env.createPROk = true
      · exact ⟨(createOrUpdateFile env).2 ++ [GitAct.createPR], by simp [hf, hp]⟩
      · exact ⟨(createOrUpdateFile env).2 ++ [GitAct.createPR], by simp [hf, hp]⟩
  · simp only [Bool.not_eq_true] at hc
    exact ⟨[], by simp [hc]⟩

/-- Claim C4: in every invocation of `CreateTestPR` where the target branch
already exists, the branch is deleted before being recreated from the
default branch's head, and the pre-existing-branch case itself produces no
error; a 404 on the existence check is the non-error path, while any other
failing lookup status is a fatal error. -/
theorem createTestPR_branch_spec (env : GHEnv) (m : Nat)
    (hm : env.mainRef = some m) :
    (env.branchLookup = BranchLookup.ok → env.deleteOk = true →
       ∃ rest, (createTestPR env).2 =
         [GitAct.getMainRef, GitAct.getBranchRef, GitAct.deleteRef,
          GitAct.createRef m] ++ rest) ∧
    (env.branchLookup = BranchLookup.err 404 →
       ∃ rest, (createTestPR env).2 =
         [GitAct.getMainRef, GitAct.getBranchRef, GitAct.createRef m] ++ rest) ∧
    (∀ s, env.branchLookup = BranchLookup.err s → s ≠ 404 →
       (createTestPR env).1 = Except.error PRErr.checkBranchErr) := by
  refine ⟨?_, ?_, ?_⟩
  · intro hb hd
    obtain ⟨rest, hrest⟩ :=
      afterBranchCheck_trace env m
        ([GitAct.getMainRef, GitAct.getBranchRef] ++ [GitAct.deleteRef])
    refine ⟨rest, ?_⟩
    simp only [createTestPR, hm, hb, hd, if_true]
    simpa using hrest
  · intro hb
    obtain ⟨rest, hrest⟩ :=
      afterBranchCheck_trace env m [GitAct.getMainRef, GitAct.getBranchRef]
    refine ⟨rest, ?_⟩
    simp only [createTestPR, hm, hb, if_true]
    simpa using hrest
  · intro s hb hs
    simp [createTestPR, hm, hb, hs]

/-- Witness for claim C4 at concrete publisher environments: a
pre-existing branch (delete-then-recreate trace) and a non-404 lookup
failure (fatal). -/
theorem createTestPR_branch_spec_witness :
    (∃ rest, (createTestPR wEnvC4).2 =
       [GitAct.getMainRef, GitAct.getBranchRef, GitAct.deleteRef,
        GitAct.createRef 7] ++ rest) ∧
    (createTestPR wEnvC4b).1 = Except.error PRErr.checkBranchErr :=
  ⟨(createTestPR_branch_spec wEnvC4 7 rfl).1 rfl rfl,
   (createTestPR_branch_spec wEnvC4b 7 rfl).2.2 500 rfl (by decide)⟩

/-- Claim C5: in every invocation of the file upsert step, a not-found
lookup leads to a create call with no content-hash precondition; a
successful lookup leads to an update call passing the existing file's
content hash; any other failing lookup status is fatal. -/
theorem createOrUpdateFile_spec (env : GHEnv) :
    (env.fileLookup = FileLookup.err 404 →
       (createOrUpdateFile env).2 = [GitAct.getContents, GitAct.createFile none] ∧
       (∀ sh, GitAct.updateFile sh ∉ (createOrUpdateFile env).2)) ∧
    (∀ sha, env.fileLookup = FileLookup.found sha →
       (createOrUpdateFile env).2 =
         [GitAct.getContents, GitAct.updateFile (some sha)] ∧
       (∀ sh, GitAct.createFile sh ∉ (createOrUpdateFile env).2)) ∧
    (∀ s, env.fileLookup = FileLookup.err s → s ≠ 404 →
       (createOrUpdateFile env).1 = Except.error FileErr.checkFileErr) := by
  refine ⟨?_, ?_, ?_⟩
  · intro hf
    by_cases hc : env.createFileOk = true <;>
      simp [createOrUpdateFile, hf, hc]
  · intro sha hf
    by_cases hu : env.updateFileOk = true <;>
      simp [createOrUpdateFile, hf, hu]
  · intro s hf hs
    simp [createOrUpdateFile, hf, hs]

/-- Witness for claim C5 at concrete publisher environments: a not-found
lookup (create, no SHA) and an existing file with hash 9 (update with
SHA 9). -/
theorem createOrUpdateFile_spec_witness :
    ((createOrUpdateFile wEnvC5).2 = [GitAct.getContents, GitAct.createFile none] ∧
       (∀ sh, GitAct.updateFile sh ∉ (createOrUpdateFile wEnvC5).2)) ∧
    ((createOrUpdateFile wEnvC5b).2 =
       [GitAct.getContents, GitAct.updateFile (some 9)] ∧
       (∀ sh, GitAct.createFile sh ∉ (createOrUpdateFile wEnvC5b).2)) :=
  ⟨(createOrUpdateFile_spec wEnvC5).1 rfl,
   (createOrUpdateFile_spec wEnvC5b).2.1 9 rfl⟩

/- ----------------------------------------------------------------
Claim C10 about createBranchName.
---------------------------------------------------------------- -/

theorem replaceAllF_single (a b : Char) (f : Nat) :
    ∀ s : Str, s.length ≤ f →
      replaceAllF [a] [b] f s = s.map (fun c => if c = a then b else c) := by
  induction f with
  | zero =>
    intro s h
    have hs : s = [] := List.length_eq_zero.mp (Nat.le_zero.mp h)
    subst hs; rfl
  | succ f ih =>
    intro s h
    match s with
    | [] => rfl
    | c :: t =>
      have ht : t.length ≤ f := by
        simp only [List.length_cons] at h; omega
      rw [replaceAllF]
      by_cases hac : a = c
      · subst hac
        simp [List.isPrefixOf, ih t ht]
      · have hca : ¬(c = a) := fun he => hac he.symm
        simp [List.isPrefixOf, hac, hca, ih t ht]

theorem replaceAll_single (a b : Char) (s : Str) :
    replaceAll [a] [b] s = s.map (fun c => if c = a then b else c) :=
  replaceAllF_single a b s.length s le_rfl

theorem charToNat_ofNat (n : Nat) (h : n < 55296) : (Char.ofNat n).toNat = n := by
  have hv : n.isValidChar := Or.inl h
  rw [Char.ofNat, dif_pos hv]
  rfl

theorem charToNat_inj {c d : Char} (h : c.toNat = d.toNat) : c = d := by
  have h2 := congrArg Char.ofNat h
  rwa [Char.ofNat_toNat, Char.ofNat_toNat] at h2

theorem lowerChar_not_upper (c : Char) : isUpperA (lowerChar c) = false := by
  unfold lowerChar
  by_cases h : 65 ≤ c.toNat ∧ c.toNat ≤ 90
  · rw [if_pos h]
    have h2 : (Char.ofNat (c.toNat + 32)).toNat = c.toNat + 32 :=
      charToNat_ofNat _ (by omega)
    simp only [isUpperA, h2, decide_eq_false_iff_not]
    omega
  · rw [if_neg h]
    simp only [isUpperA, decide_eq_false_iff_not]
    exact h

theorem lowerChar_toNat_ne (c : Char) (n : Nat) (hn : n < 97)
    (hc : c.toNat ≠ n) : (lowerChar c).toNat ≠ n := by
  unfold lowerChar
  by_cases h : 65 ≤ c.toNat ∧ c.toNat ≤ 90
  · rw [if_pos h, charToNat_ofNat _ (by omega)]
    omega
  · rw [if_neg h]
    exact hc

theorem lowerChar_ne_low (d x : Char) (hx : x.toNat < 97) (hd : d ≠ x) :
    lowerChar d ≠ x := by
  intro he
  exact lowerChar_toNat_ne d x.toNat hx (fun h => hd (charToNat_inj h))
    (congrArg Char.toNat he)

theorem substSlash_ne_slash (x : Char) :
    (if x = slashCh then dashCh else x) ≠ slashCh := by
  by_cases h : x = slashCh
  · rw [if_pos h]; decide
  · rw [if_neg h]; exact h

theorem substUnd_ne_slash (x : Char) (hx : x ≠ slashCh) :
    (if x = underscoreCh then dashCh else x) ≠ slashCh := by
  by_cases h : x = underscoreCh
  · rw [if_pos h]; decide
  · rw [if_neg h]; exact hx

theorem substUnd_ne_und (x : Char) :
    (if x = underscoreCh then dashCh else x) ≠ underscoreCh := by
  by_cases h : x = underscoreCh
  · rw [if_pos h]; decide
  · rw [if_neg h]; exact h

/-- Claim C10: for every input file path, `createBranchName` returns a
string that begins with `auto-tests-`, is entirely lower case, and
contains no path separator or underscore; for a path whose directory
component is the current directory it returns exactly `auto-tests-root`. -/
theorem createBranchName_spec (p : Str) :
    (("auto-tests-").data).isPrefixOf (createBranchName p) = true ∧
    (∀ c ∈ createBranchName p, isUpperA c = false) ∧
    slashCh ∉ createBranchName p ∧
    underscoreCh ∉ createBranchName p ∧
    (filepathDir p = dotStr → createBranchName p = ("auto-tests-root").data) := by
  by_cases hd : filepathDir p = dotStr
  · have hcb : createBranchName p = ("auto-tests-root").data := by
      simp [createBranchName, hd]
    refine ⟨?_, ?_, ?_, ?_, fun _ => hcb⟩ <;> rw [hcb] <;> decide
  · have hcb : createBranchName p = ("auto-tests-").data ++
        ((((filepathDir p).map (fun x => if x = slashCh then dashCh else x)).map
          (fun x => if x = underscoreCh then dashCh else x)).map lowerChar) := by
      simp only [createBranchName, hd, if_false, goToLower, replaceAll_single]
    refine ⟨?_, ?_, ?_, ?_, fun h => absurd h hd⟩
    · rw [hcb]; simp
    · intro c hc
      rw [hcb] at hc
      rcases List.mem_append.mp hc with h1 | h1
      · revert h1
        have hall : ∀ x ∈ ("auto-tests-").data, isUpperA x = false := by decide
        exact hall c
      · obtain ⟨d, _, rfl⟩ := List.mem_map.mp h1
        exact lowerChar_not_upper d
    · intro hc
      rw [hcb] at hc
      rcases List.mem_append.mp hc with h1 | h1
      · exact absurd h1 (by decide)
      · obtain ⟨d, hdmem, hdeq⟩ := List.mem_map.mp h1
        obtain ⟨e, hemem, rfl⟩ := List.mem_map.mp hdmem
        obtain ⟨x, _, rfl⟩ := List.mem_map.mp hemem
        exact lowerChar_ne_low _ slashCh (by decide)
          (substUnd_ne_slash _ (substSlash_ne_slash x)) hdeq
    · intro hc
      rw [hcb] at hc
      rcases List.mem_append.mp hc with h1 | h1
      · exact absurd h1 (by decide)
      · obtain ⟨d, hdmem, hdeq⟩ := List.mem_map.mp h1
        obtain ⟨e, hemem, rfl⟩ := List.mem_map.mp hdmem
        exact lowerChar_ne_low _ underscoreCh (by decide)
          (substUnd_ne_und _) hdeq

/-- Witness for claim C10 at concrete paths: a one-directory path and a
bare file name (whose directory component is the current directory). -/
theorem createBranchName_spec_witness :
    (("auto-tests-").data).isPrefixOf
      (createBranchName (("pkg/factorial.go").data)) = true ∧
    createBranchName (("foo.go").data) = ("auto-tests-root").data :=
  ⟨(createBranchName_spec (("pkg/factorial.go").data)).1,
   (createBranchName_spec (("foo.go").data)).2.2.2.2 (by decide)⟩

/- ----------------------------------------------------------------
Claim C3 about cleanupGeneratedCode.  Substring-occurrence machinery.
---------------------------------------------------------------- -/

theorem goContains_iff_occurs {p s : Str} : goContains p s = true ↔ p <:+: s := by
  induction s with
  | nil =>
    simp [goContains, List.isEmpty_iff]
  | cons c t ih =>
    rw [goContains, List.infix_cons_iff, Bool.or_eq_true, ih,
      List.isPrefixOf_iff_prefix]

theorem goContains_mono_infix {p s s' : Str} (hinf : s' <:+: s)
    (h : goContains p s' = true) : goContains p s = true := by
  rw [goContains_iff_occurs] at h ⊢
  exact h.trans hinf

theorem countPos_eq_zero_iff {p s : Str} :
    countPos p s = 0 ↔ goContains p s = false := by
  induction s with
  | nil =>
    by_cases hp : p.isEmpty <;> simp [countPos, goContains, hp]
  | cons c t ih =>
    by_cases hpre : p.isPrefixOf (c :: t) <;>
      simp [countPos, goContains, hpre, ih]

theorem countPos_pos_of_contains {p s : Str} (h : goContains p s = true) :
    1 ≤ countPos p s := by
  rcases Nat.eq_zero_or_pos (countPos p s) with h0 | h1
  · rw [countPos_eq_zero_iff.mp h0] at h
    cases h
  · exact h1

theorem isPrefixOf_append_left {p a b : Str} (h : p.isPrefixOf a = true) :
    p.isPrefixOf (a ++ b) = true := by
  rw [List.isPrefixOf_iff_prefix] at h ⊢
  exact h.trans (List.prefix_append a b)

theorem countPos_le_append_left (p a b : Str) :
    countPos p b ≤ countPos p (a ++ b) := by
  induction a with
  | nil => simp
  | cons c a' ih =>
    rw [List.cons_append, countPos]
    omega

theorem countPos_le_append_right (p a b : Str) :
    countPos p a ≤ countPos p (a ++ b) := by
  induction a with
  | nil =>
    by_cases hp : p.isEmpty
    · rw [List.isEmpty_iff] at hp
      subst hp
      have : ∀ s : Str, 1 ≤ countPos [] s := by
        intro s
        cases s <;> simp [countPos, List.isPrefixOf]
      simpa [countPos] using this b
    · simp [countPos, hp]
  | cons c a' ih =>
    show countPos p (c :: a') ≤ countPos p ((c :: a') ++ b)
    rw [List.cons_append]
    rw [show countPos p (c :: a') =
      (if p.isPrefixOf (c :: a') then 1 else 0) + countPos p a' from rfl]
    rw [show countPos p (c :: (a' ++ b)) =
      (if p.isPrefixOf (c :: (a' ++ b)) then 1 else 0) + countPos p (a' ++ b) from rfl]
    by_cases hpre : p.isPrefixOf (c :: a') = true
    · have h2 : p.isPrefixOf (c :: (a' ++ b)) = true := by
        have h3 := isPrefixOf_append_left (b := b) hpre
        rwa [List.cons_append] at h3
      rw [hpre, h2]
      simp only [if_true]
      omega
    · rw [Bool.not_eq_true] at hpre
      rw [hpre]
      by_cases h2 : p.isPrefixOf (c :: (a' ++ b)) = true <;>
        simp [h2] <;> omega

theorem countPos_infix_le {p s s' : Str} (hinf : s' <:+: s) :
    countPos p s' ≤ countPos p s := by
  obtain ⟨a, b, rfl⟩ := hinf
  calc countPos p s' ≤ countPos p (s' ++ b) := countPos_le_append_right p s' b
    _ ≤ countPos p (a ++ (s' ++ b)) := countPos_le_append_left p a (s' ++ b)
    _ = countPos p (a ++ s' ++ b) := by rw [List.append_assoc]

theorem isPrefixOf_append_sep {c0 : Char} {p : Str} (hsep : c0 ∉ p) :
    ∀ a b : Str, p.isPrefixOf (a ++ c0 :: b) = p.isPrefixOf a := by
  induction p with
  | nil => intro a b; simp [List.isPrefixOf]
  | cons q qs ih =>
    intro a b
    match a with
    | [] =>
      have hq : (q == c0) = false := by
        simp only [beq_eq_false_iff_ne, ne_eq]
        intro he
        exact hsep (he ▸ List.mem_cons_self q qs)
      simp [List.isPrefixOf, hq]
    | x :: a' =>
      have hsep' : c0 ∉ qs := fun h => hsep (List.mem_cons_of_mem q h)
      simp only [List.cons_append, List.isPrefixOf, List.append_eq]
      rw [ih hsep' a' b]

theorem countPos_append_sep {c0 : Char} {p : Str} (hsep : c0 ∉ p)
    (hne : p ≠ []) (a b : Str) :
    countPos p (a ++ c0 :: b) = countPos p a + countPos p b := by
  induction a with
  | nil =>
    rw [List.nil_append]
    have h1 : p.isPrefixOf (c0 :: b) = false := by
      have h2 := isPrefixOf_append_sep hsep [] b
      rw [List.nil_append] at h2
      rw [h2]
      cases p
      · exact absurd rfl hne
      · rfl
    simp [countPos, h1, List.isEmpty_iff, hne]
  | cons x a' ih =>
    have hx : p.isPrefixOf (x :: (a' ++ c0 :: b)) = p.isPrefixOf (x :: a') := by
      have h2 := isPrefixOf_append_sep hsep (x :: a') b
      rwa [List.cons_append] at h2
    simp only [List.cons_append, countPos, List.append_eq, hx, ih]
    omega

theorem goContains_append_sep {c0 : Char} {p : Str} (hsep : c0 ∉ p)
    (hne : p ≠ []) (a b : Str) :
    goContains p (a ++ c0 :: b) = (goContains p a || goContains p b) := by
  have hcp := countPos_append_sep hsep hne a b
  rcases hca : goContains p a with _ | _
  · rcases hcb : goContains p b with _ | _
    · have h0 : countPos p (a ++ c0 :: b) = 0 := by
        rw [hcp, countPos_eq_zero_iff.mpr hca, countPos_eq_zero_iff.mpr hcb]
      rw [countPos_eq_zero_iff.mp h0]
      simp
    · have h1 : 1 ≤ countPos p (a ++ c0 :: b) := by
        have := countPos_pos_of_contains hcb
        omega
      have h2 : goContains p (a ++ c0 :: b) = true := by
        by_contra hc
        have h3 : goContains p (a ++ c0 :: b) = false := by simpa using hc
        rw [← countPos_eq_zero_iff] at h3
        omega
      rw [h2]
      simp
  · have h1 : 1 ≤ countPos p (a ++ c0 :: b) := by
      have := countPos_pos_of_contains hca
      omega
    have h2 : goContains p (a ++ c0 :: b) = true := by
      by_contra hc
      have h3 : goContains p (a ++ c0 :: b) = false := by simpa using hc
      rw [← countPos_eq_zero_iff] at h3
      omega
    rw [h2]
    simp

/- ----------------------------------------------------------------
Trimming, splitting and joining lemmas for cleanupGeneratedCode.
---------------------------------------------------------------- -/

theorem infix_dropWhile_of_head (q0 : Char) (pr s : Str)
    (hq : isSpaceCh q0 = false) (h : (q0 :: pr) <:+: s) :
    (q0 :: pr) <:+: s.dropWhile isSpaceCh := by
  induction s with
  | nil =>
    rw [List.infix_nil] at h
    cases h
  | cons c t ih =>
    by_cases hc : isSpaceCh c = true
    · rw [List.dropWhile_cons_of_pos hc]
      rcases List.infix_cons_iff.mp h with hpre | hinf
      · obtain ⟨u, hu⟩ := hpre
        rw [List.cons_append] at hu
        have hqc : q0 = c := (List.cons.injEq _ _ _ _ ▸ hu).1
        rw [hqc, hc] at hq
        cases hq
      · exact ih hinf
    · rw [List.dropWhile_cons_of_neg (by simpa using hc)]
      exact h

theorem infix_trimRightS {p s : Str} {qlast : Char} {prr : Str}
    (hrev : p.reverse = qlast :: prr) (hql : isSpaceCh qlast = false)
    (h : p <:+: s) : p <:+: trimRightS s := by
  unfold trimRightS
  have h1 : p.reverse <:+: s.reverse := List.reverse_infix.mpr h
  rw [hrev] at h1
  have h2 := infix_dropWhile_of_head qlast prr s.reverse hql h1
  rw [← hrev] at h2
  have h3 : p.reverse <:+: ((s.reverse.dropWhile isSpaceCh).reverse).reverse := by
    simpa using h2
  exact List.reverse_infix.mp h3

theorem goContains_trimSpaceS {p s : Str} {q0 qlast : Char} {pr prr : Str}
    (hp : p = q0 :: pr) (hq : isSpaceCh q0 = false)
    (hrev : p.reverse = qlast :: prr) (hql : isSpaceCh qlast = false)
    (h : goContains p s = true) : goContains p (trimSpaceS s) = true := by
  rw [goContains_iff_occurs] at h ⊢
  have h1 := infix_trimRightS hrev hql h
  unfold trimSpaceS trimLeftS
  subst hp
  exact infix_dropWhile_of_head q0 pr _ hq h1

theorem trimSpaceS_piece (s : Str) : trimSpaceS s <:+: s := by
  have h1 : trimSpaceS s <:+ trimRightS s := List.dropWhile_suffix _
  have h2 : trimRightS s <+: s := by
    have h3 : (s.reverse.dropWhile isSpaceCh) <:+ s.reverse :=
      List.dropWhile_suffix _
    have h4 := List.reverse_prefix.mpr h3
    simpa using h4
  exact h1.isInfix.trans h2.isInfix

theorem trimRightS_append {a b : Str} (hb : ∃ c ∈ b, isSpaceCh c = false) :
    trimRightS (a ++ b) = a ++ trimRightS b := by
  unfold trimRightS
  rw [List.reverse_append]
  have hne : b.reverse.dropWhile isSpaceCh ≠ [] := by
    intro h0
    obtain ⟨c, hc, hcs⟩ := hb
    have h1 := List.dropWhile_eq_nil_iff.mp h0 c (List.mem_reverse.mpr hc)
    rw [hcs] at h1
    cases h1
  have hcond : (b.reverse.dropWhile isSpaceCh).isEmpty = false := by
    simpa [List.isEmpty_iff] using hne
  rw [List.dropWhile_append, hcond]
  simp

theorem trimRightS_eq_self {s : Str} (hs : ∀ c ∈ s, isSpaceCh c = false) :
    trimRightS s = s := by
  unfold trimRightS
  rcases hrev : s.reverse with _ | ⟨d, r⟩
  · have hs0 : s = [] := by simpa using congrArg List.reverse hrev
    simp [hs0]
  · have hd : isSpaceCh d = false := by
      apply hs
      rw [← List.mem_reverse, hrev]
      exact List.mem_cons_self d r
    rw [List.dropWhile_cons_of_neg (by simp [hd]), ← hrev, List.reverse_reverse]

theorem trimSpaceS_pkgLine (name : Str) (hne : name ≠ [])
    (hns : ∀ c ∈ name, isSpaceCh c = false) :
    trimSpaceS (pkgSp ++ name) = pkgSp ++ name := by
  unfold trimSpaceS
  have h1 : trimRightS (pkgSp ++ name) = pkgSp ++ name := by
    rcases name with _ | ⟨d, r⟩
    · exact absurd rfl hne
    · rw [trimRightS_append ⟨d, List.mem_cons_self d r, hns d (List.mem_cons_self d r)⟩,
        trimRightS_eq_self hns]
  rw [h1]
  rw [show pkgSp ++ name = 'p' :: (("ackage ").data ++ name) from rfl]
  unfold trimLeftS
  rw [List.dropWhile_cons_of_neg (by decide)]

theorem splitCh_ne_nil (sep : Char) (s : Str) : splitCh sep s ≠ [] := by
  induction s with
  | nil => simp [splitCh]
  | cons c t ih =>
    rw [splitCh]
    by_cases hc : c = sep
    · simp [hc]
    · rw [if_neg hc]
      rcases h : splitCh sep t with _ | ⟨h1, r⟩ <;> simp

theorem splitCh_head_prefix (sep : Char) (s : Str) :
    ∀ h1 r, splitCh sep s = h1 :: r → h1 <+: s := by
  induction s with
  | nil =>
    intro h1 r h
    rw [splitCh] at h
    have : h1 = [] := (List.cons.injEq _ _ _ _ ▸ h).1.symm
    subst this
    exact List.nil_prefix
  | cons c t ih =>
    intro h1 r h
    rw [splitCh] at h
    by_cases hc : c = sep
    · rw [if_pos hc] at h
      have : h1 = [] := (List.cons.injEq _ _ _ _ ▸ h).1.symm
      subst this
      exact List.nil_prefix
    · rw [if_neg hc] at h
      rcases ht : splitCh sep t with _ | ⟨h', r'⟩
      · exact absurd ht (splitCh_ne_nil sep t)
      · rw [ht] at h
        have heq : h1 = c :: h' := (List.cons.injEq _ _ _ _ ▸ h).1.symm
        subst heq
        exact List.cons_prefix_cons.mpr ⟨rfl, ih h' r' ht⟩

theorem mem_splitCh_piece (sep : Char) (s : Str) :
    ∀ l, l ∈ splitCh sep s → l <:+: s := by
  induction s with
  | nil =>
    intro l h
    rw [splitCh] at h
    rcases List.mem_cons.mp h with rfl | h2
    · exact List.infix_refl []
    · cases h2
  | cons c t ih =>
    intro l h
    rw [splitCh] at h
    by_cases hc : c = sep
    · rw [if_pos hc] at h
      rcases List.mem_cons.mp h with rfl | hmem
      · exact List.nil_infix
      · exact List.infix_cons (ih l hmem)
    · rw [if_neg hc] at h
      rcases ht : splitCh sep t with _ | ⟨h', r'⟩
      · exact absurd ht (splitCh_ne_nil sep t)
      · rw [ht] at h
        rcases List.mem_cons.mp h with rfl | hmem
        · exact (List.cons_prefix_cons.mpr
            ⟨rfl, splitCh_head_prefix sep t h' r' ht⟩).isInfix
        · have hmem2 : l ∈ splitCh sep t := by
            rw [ht]
            exact List.mem_cons_of_mem h' hmem
          exact List.infix_cons (ih l hmem2)

theorem joinNl_splitNl (s : Str) : joinNl (splitNl s) = s ++ [nl] := by
  unfold splitNl
  induction s with
  | nil => rfl
  | cons c t ih =>
    rw [splitCh]
    by_cases hc : c = nl
    · rw [if_pos hc, joinNl, ih]
      simp [hc]
    · rw [if_neg hc]
      rcases ht : splitCh nl t with _ | ⟨h', r'⟩
      · exact absurd ht (splitCh_ne_nil nl t)
      · rw [ht] at ih
        rw [joinNl] at ih ⊢
        simp only [List.cons_append, List.append_assoc] at ih ⊢
        rw [ih]

theorem insertLoop_true (ls : List Str) : insertLoop ls true = joinNl ls := by
  induction ls with
  | nil => rfl
  | cons l ls ih =>
    rw [insertLoop, joinNl]
    simp [ih]

theorem splitCh_append_cons (sep : Char) {a : Str} (b : Str) (hsep : sep ∉ a) :
    splitCh sep (a ++ sep :: b) = a :: splitCh sep b := by
  induction a with
  | nil =>
    rw [List.nil_append, splitCh, if_pos rfl]
  | cons x a' ih =>
    have hx : ¬(x = sep) := fun he => hsep (he ▸ List.mem_cons_self x a')
    have hs' : sep ∉ a' := fun h => hsep (List.mem_cons_of_mem x h)
    rw [List.cons_append, splitCh, if_neg hx, ih hs']

/- ----------------------------------------------------------------
Fence-stripping lemmas: after the `strings.ReplaceAll(s, "```", "")` pass
no three consecutive backticks remain, and later passes preserve that.
---------------------------------------------------------------- -/

theorem fence_eq : fence = [bq, bq, bq] := by decide

theorem twoTicks_isPrefixOf_iff (u : Str) :
    ([bq, bq] : Str).isPrefixOf u = true ↔ 2 ≤ leadTicks u := by
  match u with
  | [] => simp [List.isPrefixOf, leadTicks]
  | [c] =>
    by_cases hc : c = bq
    · subst hc
      simp [List.isPrefixOf, leadTicks]
    · have hc' : ¬(bq = c) := fun h => hc h.symm
      simp [List.isPrefixOf, leadTicks, hc, hc']
  | c :: d :: r =>
    by_cases hc : c = bq
    · subst hc
      by_cases hd : d = bq
      · subst hd
        simp [List.isPrefixOf, leadTicks]
      · have hd' : ¬(bq = d) := fun h => hd h.symm
        simp [List.isPrefixOf, leadTicks, hd, hd']
    · have hc' : ¬(bq = c) := fun h => hc h.symm
      simp [List.isPrefixOf, leadTicks, hc, hc']

theorem fence_isPrefixOf_cons (u : Str) :
    fence.isPrefixOf (bq :: u) = ([bq, bq] : Str).isPrefixOf u := by
  rw [fence_eq]
  simp [List.isPrefixOf]

theorem replaceAllF_fence (f : Nat) :
    ∀ s : Str, s.length ≤ f →
      goContains fence (replaceAllF fence [] f s) = false ∧
      leadTicks (replaceAllF fence [] f s) ≤ leadTicks s := by
  induction f with
  | zero =>
    intro s h
    have hs : s = [] := List.length_eq_zero.mp (Nat.le_zero.mp h)
    subst hs
    exact ⟨by decide, le_rfl⟩
  | succ f ih =>
    intro s h
    match s with
    | [] =>
      rw [replaceAllF]
      exact ⟨by decide, le_rfl⟩
    | c :: t =>
      rw [replaceAllF]
      by_cases hpre : fence.isPrefixOf (c :: t) = true
      · have hcond : (!fence.isEmpty && fence.isPrefixOf (c :: t)) = true := by
          rw [hpre]
          decide
        rw [if_pos hcond]
        obtain ⟨rest, hrest⟩ := List.isPrefixOf_iff_prefix.mp hpre
        have hdrop : (c :: t).drop fence.length = rest := by
          rw [← hrest]
          exact List.drop_left fence rest
        have hlen : rest.length ≤ f := by
          have h2 := congrArg List.length hrest
          rw [List.length_append, fence_eq] at h2
          simp only [List.length_cons] at h2 h
          omega
        obtain ⟨ihc, ihl⟩ := ih rest hlen
        rw [hdrop]
        constructor
        · simpa using ihc
        · have hshape : c :: t = bq :: bq :: bq :: rest := by
            rw [← hrest, fence_eq]
            rfl
          rw [hshape]
          have hlead : leadTicks (bq :: bq :: bq :: rest) = 3 + leadTicks rest := by
            simp [leadTicks]
            omega
          rw [hlead]
          simp only [List.nil_append]
          omega
      · have hcond : (!fence.isEmpty && fence.isPrefixOf (c :: t)) = false := by
          rw [Bool.not_eq_true] at hpre
          rw [hpre]
          simp
        rw [hcond]
        simp only [Bool.false_eq_true, if_false]
        have hlt : t.length ≤ f := by
          simp only [List.length_cons] at h
          omega
        obtain ⟨ihc, ihl⟩ := ih t hlt
        rw [Bool.not_eq_true] at hpre
        constructor
        · by_cases hc : c = bq
          · subst hc
            have h2 : ([bq, bq] : Str).isPrefixOf t = false := by
              rw [← fence_isPrefixOf_cons]
              exact hpre
            have hlt2 : leadTicks t ≤ 1 := by
              by_contra hgt
              push_neg at hgt
              have := (twoTicks_isPrefixOf_iff t).mpr hgt
              rw [h2] at this
              cases this
            have hltF : leadTicks (replaceAllF fence [] f t) ≤ 1 :=
              le_trans ihl hlt2
            rw [goContains, fence_isPrefixOf_cons]
            have h3 : ([bq, bq] : Str).isPrefixOf (replaceAllF fence [] f t) = false := by
              by_contra hb
              have hb2 : ([bq, bq] : Str).isPrefixOf (replaceAllF fence [] f t) = true := by
                simpa using hb
              have := (twoTicks_isPrefixOf_iff _).mp hb2
              omega
            simp [h3, ihc]
          · rw [goContains]
            have hpre2 : fence.isPrefixOf (c :: replaceAllF fence [] f t) = false := by
              have hbc : (bq == c) = false :=
                beq_eq_false_iff_ne.mpr (fun h => hc h.symm)
              rw [fence_eq]
              simp [List.isPrefixOf, hbc]
            simp [hpre2, ihc]
        · by_cases hc : c = bq
          · subst hc
            have e1 : leadTicks (bq :: replaceAllF fence [] f t) =
                leadTicks (replaceAllF fence [] f t) + 1 := by
              simp [leadTicks]
            have e2 : leadTicks (bq :: t) = leadTicks t + 1 := by
              simp [leadTicks]
            rw [e1, e2]
            omega
          · simp [leadTicks, hc]

theorem stripFences_no_fence (raw : Str) :
    goContains fence (stripFences raw) = false := by
  unfold stripFences replaceAll
  exact (replaceAllF_fence _ _ le_rfl).1

theorem goContains_head_notMem {q0 : Char} {pr : Str} {a : Str} (b : Str)
    (ha : q0 ∉ a) :
    goContains (q0 :: pr) (a ++ b) = goContains (q0 :: pr) b := by
  induction a with
  | nil => rfl
  | cons x a' ih =>
    rw [List.cons_append, goContains]
    have h1 : (q0 :: pr).isPrefixOf (x :: (a' ++ b)) = false := by
      have hq : (q0 == x) = false :=
        beq_eq_false_iff_ne.mpr
          (fun h => ha (by rw [h]; exact List.mem_cons_self x a'))
      simp [List.isPrefixOf, hq]
    rw [h1]
    simp [ih (fun h => ha (List.mem_cons_of_mem x h))]

theorem insertLoop_no_fence (lines : List Str)
    (hl : ∀ l ∈ lines, goContains fence l = false) :
    ∀ added, goContains fence (insertLoop lines added) = false := by
  induction lines with
  | nil =>
    intro added
    rw [insertLoop]
    decide
  | cons l ls ih =>
    intro added
    have hfl := hl l (List.mem_cons_self l ls)
    have hls : ∀ x ∈ ls, goContains fence x = false := fun x hx =>
      hl x (List.mem_cons_of_mem l hx)
    have hnl : nl ∉ fence := by decide
    have hfne : fence ≠ [] := by decide
    rw [insertLoop]
    by_cases hcond : (pkgSp.isPrefixOf (trimSpaceS l) && !added) = true
    · rw [if_pos hcond]
      have hre : l ++ [nl] ++ [nl] ++ importKw ++ [nl] ++ insertLoop ls true =
          l ++ nl :: ([] ++ nl :: (importKw ++ nl :: insertLoop ls true)) := by
        simp
      rw [hre]
      simp only [goContains_append_sep hnl hfne]
      simp [hfl, ih hls true,
        show goContains fence importKw = false by decide,
        show goContains fence ([] : Str) = false by decide]
    · rw [if_neg hcond]
      have hre : l ++ [nl] ++ insertLoop ls added =
          l ++ nl :: insertLoop ls added := by
        simp
      rw [hre]
      rw [goContains_append_sep hnl hfne]
      simp [hfl, ih hls added]

/- ----------------------------------------------------------------
Value lemmas about cleanupGeneratedCode's intermediate strings.
---------------------------------------------------------------- -/

theorem alnum_char_facts {c : Char} (h : c.isAlphanum = true) :
    isSpaceCh c = false ∧ c ≠ nl ∧ c ≠ bq ∧ c ≠ '"' := by
  refine ⟨?_, ?_, ?_, ?_⟩
  · by_contra hs
    have hs' : isSpaceCh c = true := by simpa using hs
    have hs2 : ((((c = ' ' ∨ c = '\t') ∨ c = nl) ∨ c = '\r') ∨
        c = Char.ofNat 11) ∨ c = Char.ofNat 12 := by
      simpa [isSpaceCh] using hs'
    rcases hs2 with ((((h1 | h1) | h1) | h1) | h1) | h1 <;> subst h1 <;>
      exact absurd h (by decide)
  · intro he; subst he; exact absurd h (by decide)
  · intro he; subst he; exact absurd h (by decide)
  · intro he; subst he; exact absurd h (by decide)

theorem goContains_of_isPrefixOf {p s : Str} (h : p.isPrefixOf s = true) :
    goContains p s = true := by
  cases s with
  | nil =>
    cases p with
    | nil => rfl
    | cons c t => cases h
  | cons c t =>
    rw [goContains, h]
    rfl

theorem goContains_pkgSp_name {name : Str}
    (hid : ∀ c ∈ name, c.isAlphanum = true) :
    goContains pkgSp name = false := by
  by_contra hb
  have hb' : goContains pkgSp name = true := by simpa using hb
  have hinf : pkgSp <:+: name := goContains_iff_occurs.mp hb'
  have hmem : ' ' ∈ name := hinf.subset (by decide)
  have := (alnum_char_facts (hid ' ' hmem)).1
  exact absurd this (by decide)

theorem countPos_pkgLine {name : Str}
    (hid : ∀ c ∈ name, c.isAlphanum = true) :
    countPos pkgSp (pkgSp ++ name) = 1 := by
  rw [show pkgSp ++ name = 'p' :: (("ackage ").data ++ name) from rfl]
  rw [show countPos pkgSp ('p' :: (("ackage ").data ++ name)) =
    (if pkgSp.isPrefixOf ('p' :: (("ackage ").data ++ name)) then 1 else 0) +
      countPos pkgSp (("ackage ").data ++ name) from rfl]
  have h1 : pkgSp.isPrefixOf ('p' :: (("ackage ").data ++ name)) = true := by
    rw [show ('p' : Char) :: (("ackage ").data ++ name) = pkgSp ++ name from rfl]
    exact isPrefixOf_append_left (by decide)
  have h2 : countPos pkgSp (("ackage ").data ++ name) = 0 := by
    rw [countPos_eq_zero_iff]
    rw [show pkgSp = 'p' :: ("ackage ").data from rfl]
    rw [goContains_head_notMem name (by decide)]
    rw [← show pkgSp = 'p' :: ("ackage ").data from rfl]
    exact goContains_pkgSp_name hid
  rw [h1, h2]
  simp

theorem contains_testing_trim {s : Str} (h : goContains testingQ s = true) :
    goContains testingQ (trimSpaceS s) = true := by
  have hp : testingQ = '"' :: ("testing\"").data := by decide
  have hrev : testingQ.reverse = '"' :: ("gnitset\"").data := by decide
  exact goContains_trimSpaceS hp (by decide) hrev (by decide) h

theorem contains_pkg_trim_of_shape {W : Str}
    (hW : ∃ c ∈ W, isSpaceCh c = false) :
    goContains pkgSp (trimSpaceS (pkgSp ++ W)) = true := by
  unfold trimSpaceS
  rw [trimRightS_append hW]
  have h1 : goContains pkgSp (pkgSp ++ trimRightS W) = true :=
    goContains_of_isPrefixOf (isPrefixOf_append_left (by decide))
  rw [goContains_iff_occurs] at h1 ⊢
  unfold trimLeftS
  rw [show pkgSp = 'p' :: ("ackage ").data from rfl] at h1 ⊢
  exact infix_dropWhile_of_head 'p' _ _ (by decide) h1

theorem countPos_trim_one {X : Str} (hX : countPos pkgSp X = 1)
    (hc : goContains pkgSp (trimSpaceS X) = true) :
    countPos pkgSp (trimSpaceS X) = 1 := by
  have h1 := countPos_infix_le (p := pkgSp) (trimSpaceS_piece X)
  have h2 := countPos_pos_of_contains hc
  omega

theorem goContains_false_of_infix {p s s' : Str} (hinf : s' <:+: s)
    (hs : goContains p s = false) : goContains p s' = false := by
  by_contra hb
  have hb' := goContains_mono_infix hinf (by simpa using hb)
  rw [hs] at hb'
  cases hb'

theorem insertTesting_no_fence {s : Str} (hs : goContains fence s = false) :
    goContains fence (insertTesting s) = false := by
  unfold insertTesting
  apply insertLoop_no_fence
  intro l hl
  exact goContains_false_of_infix (mem_splitCh_piece nl s l hl) hs

theorem quote_notMem_pre {name : Str} (hid : ∀ c ∈ name, c.isAlphanum = true) :
    '"' ∉ (pkgSp ++ name) ++ [nl, nl] := by
  intro hmem
  rcases List.mem_append.mp hmem with h1 | h1
  · rcases List.mem_append.mp h1 with h2 | h2
    · exact absurd h2 (by decide)
    · exact (alnum_char_facts (hid _ h2)).2.2.2 rfl
  · exact absurd h1 (by decide)

theorem bq_notMem_pre {name : Str} (hid : ∀ c ∈ name, c.isAlphanum = true) :
    bq ∉ (pkgSp ++ name) ++ [nl, nl] := by
  intro hmem
  rcases List.mem_append.mp hmem with h1 | h1
  · rcases List.mem_append.mp h1 with h2 | h2
    · exact absurd h2 (by decide)
    · exact (alnum_char_facts (hid _ h2)).2.2.1 rfl
  · exact absurd h1 (by decide)

theorem nl_notMem_pkgLine {name : Str} (hid : ∀ c ∈ name, c.isAlphanum = true) :
    nl ∉ pkgSp ++ name := by
  intro hmem
  rcases List.mem_append.mp hmem with h1 | h1
  · exact absurd h1 (by decide)
  · exact (alnum_char_facts (hid _ h1)).2.1 rfl

theorem prepend_no_fence {name g2 : Str} (hid : ∀ c ∈ name, c.isAlphanum = true)
    (hf : goContains fence g2 = false) :
    goContains fence (pkgSp ++ name ++ [nl, nl] ++ g2) = false := by
  have hre : pkgSp ++ name ++ [nl, nl] ++ g2 =
      ((pkgSp ++ name) ++ [nl, nl]) ++ g2 := by simp
  rw [hre, fence_eq, goContains_head_notMem g2 (bq_notMem_pre hid)]
  exact hf

theorem prepend_contains_testing (name : Str) {g2 : Str}
    (ht : goContains testingQ g2 = true) :
    goContains testingQ (pkgSp ++ name ++ [nl, nl] ++ g2) = true := by
  rw [goContains_iff_occurs] at ht ⊢
  exact ht.trans ⟨(pkgSp ++ name) ++ [nl, nl], [], by simp⟩

theorem prepend_no_testing {name g2 : Str} (hid : ∀ c ∈ name, c.isAlphanum = true)
    (hnt : goContains testingQ g2 = false) :
    goContains testingQ (pkgSp ++ name ++ [nl, nl] ++ g2) = false := by
  have hre : pkgSp ++ name ++ [nl, nl] ++ g2 =
      ((pkgSp ++ name) ++ [nl, nl]) ++ g2 := by simp
  rw [hre, show testingQ = '"' :: ("testing\"").data from rfl,
    goContains_head_notMem g2 (quote_notMem_pre hid)]
  exact hnt

theorem countPos_keepShape {name g2 : Str}
    (hid : ∀ c ∈ name, c.isAlphanum = true)
    (hnp : goContains pkgSp g2 = false) :
    countPos pkgSp (pkgSp ++ name ++ [nl, nl] ++ g2) = 1 := by
  have hnlp : nl ∉ pkgSp := by decide
  have hpne : pkgSp ≠ [] := by decide
  have hre : pkgSp ++ name ++ [nl, nl] ++ g2 =
      (pkgSp ++ name) ++ nl :: (nl :: g2) := by simp
  rw [hre, countPos_append_sep hnlp hpne,
    show (nl :: g2 : Str) = [] ++ nl :: g2 from rfl,
    countPos_append_sep hnlp hpne,
    countPos_pkgLine hid, countPos_eq_zero_iff.mpr hnp]
  simp [countPos, hpne, List.isEmpty_iff]

theorem countPos_insertShape {name g2 : Str}
    (hid : ∀ c ∈ name, c.isAlphanum = true)
    (hnp : goContains pkgSp g2 = false) :
    countPos pkgSp (pkgSp ++ name ++ [nl, nl] ++ importKw ++ [nl, nl] ++
      g2 ++ [nl]) = 1 := by
  have hnlp : nl ∉ pkgSp := by decide
  have hpne : pkgSp ≠ [] := by decide
  have hre : pkgSp ++ name ++ [nl, nl] ++ importKw ++ [nl, nl] ++ g2 ++ [nl] =
      (pkgSp ++ name) ++ nl :: ([] ++ nl ::
        (importKw ++ nl :: ([] ++ nl :: (g2 ++ nl :: [])))) := by simp
  rw [hre, countPos_append_sep hnlp hpne, countPos_append_sep hnlp hpne,
    countPos_append_sep hnlp hpne, countPos_append_sep hnlp hpne,
    countPos_append_sep hnlp hpne,
    countPos_pkgLine hid, countPos_eq_zero_iff.mpr hnp]
  have h1 : countPos pkgSp importKw = 0 := by decide
  have h2 : countPos pkgSp ([] : Str) = 0 := by decide
  simp only [h1, h2]

theorem cleanup_eq_id {raw name : Str}
    (hp : goContains pkgSp (stripFences raw) = true)
    (ht : goContains testingQ (stripFences raw) = true) :
    cleanupGeneratedCode raw name = trimSpaceS (stripFences raw) := by
  simp [cleanupGeneratedCode, hp, ht]

theorem cleanup_eq_insP {raw name : Str}
    (hp : goContains pkgSp (stripFences raw) = true)
    (ht : goContains testingQ (stripFences raw) = false) :
    cleanupGeneratedCode raw name =
      trimSpaceS (insertTesting (stripFences raw)) := by
  simp [cleanupGeneratedCode, hp, ht]

theorem cleanup_eq_keep {raw name : Str}
    (hp : goContains pkgSp (stripFences raw) = false)
    (ht : goContains testingQ (stripFences raw) = true) :
    cleanupGeneratedCode raw name =
      trimSpaceS (pkgSp ++ name ++ [nl, nl] ++ stripFences raw) := by
  have h2 := prepend_contains_testing name ht
  have h2' : goContains testingQ (pkgSp ++ (name ++ nl :: nl :: stripFences raw)) =
      true := by simpa using h2
  simp [cleanupGeneratedCode, hp, h2']

theorem cleanup_eq_insert {raw name : Str} (hne : name ≠ [])
    (hid : ∀ c ∈ name, c.isAlphanum = true)
    (hp : goContains pkgSp (stripFences raw) = false)
    (ht : goContains testingQ (stripFences raw) = false) :
    cleanupGeneratedCode raw name =
      trimSpaceS (pkgSp ++ name ++ [nl, nl] ++ importKw ++ [nl, nl] ++
        stripFences raw ++ [nl]) := by
  have h2 := prepend_no_testing hid ht
  have hsplit : splitNl (pkgSp ++ name ++ [nl, nl] ++ stripFences raw) =
      (pkgSp ++ name) :: [] :: splitNl (stripFences raw) := by
    have hre : pkgSp ++ name ++ [nl, nl] ++ stripFences raw =
        (pkgSp ++ name) ++ nl :: (nl :: stripFences raw) := by simp
    rw [hre]
    show splitCh nl _ = _
    rw [splitCh_append_cons nl (nl :: stripFences raw) (nl_notMem_pkgLine hid)]
    rw [splitCh, if_pos rfl]
    rfl
  have htrimA : trimSpaceS (pkgSp ++ name) = pkgSp ++ name :=
    trimSpaceS_pkgLine name hne (fun c hc => (alnum_char_facts (hid c hc)).1)
  have h8 : pkgSp.isPrefixOf (pkgSp ++ name) = true :=
    isPrefixOf_append_left (by decide)
  have hloop : insertTesting (pkgSp ++ name ++ [nl, nl] ++ stripFences raw) =
      pkgSp ++ name ++ [nl, nl] ++ importKw ++ [nl, nl] ++
        stripFences raw ++ [nl] := by
    unfold insertTesting
    rw [hsplit, insertLoop]
    have hcond : (pkgSp.isPrefixOf (trimSpaceS (pkgSp ++ name)) && !false) = true := by
      rw [htrimA, h8]
      rfl
    rw [if_pos hcond, insertLoop_true, joinNl, joinNl_splitNl]
    simp
  have h2' : goContains testingQ (pkgSp ++ (name ++ nl :: nl :: stripFences raw)) =
      false := by simpa using h2
  simp only [List.append_assoc, List.cons_append, List.nil_append] at hloop
  simp [cleanupGeneratedCode, hp, h2', hloop]

theorem cleanup_countPos_one {raw name : Str} (hne : name ≠ [])
    (hid : ∀ c ∈ name, c.isAlphanum = true)
    (hp : goContains pkgSp (stripFences raw) = false) :
    countPos pkgSp (cleanupGeneratedCode raw name) = 1 := by
  obtain ⟨d, r, rfl⟩ : ∃ d r, name = d :: r := by
    cases name with
    | nil => exact absurd rfl hne
    | cons d r => exact ⟨d, r, rfl⟩
  have hd : isSpaceCh d = false :=
    (alnum_char_facts (hid d (List.mem_cons_self d r))).1
  by_cases ht : goContains testingQ (stripFences raw) = true
  · rw [cleanup_eq_keep hp ht]
    have hre : pkgSp ++ (d :: r) ++ [nl, nl] ++ stripFences raw =
        pkgSp ++ ((d :: r) ++ ([nl, nl] ++ stripFences raw)) := by simp
    refine countPos_trim_one ?_ ?_
    · exact countPos_keepShape hid hp
    · rw [hre]
      exact contains_pkg_trim_of_shape
        ⟨d, List.mem_append.mpr (Or.inl (List.mem_cons_self d r)), hd⟩
  · rw [Bool.not_eq_true] at ht
    rw [cleanup_eq_insert hne hid hp ht]
    have hre : pkgSp ++ (d :: r) ++ [nl, nl] ++ importKw ++ [nl, nl] ++
        stripFences raw ++ [nl] =
        pkgSp ++ ((d :: r) ++ ([nl, nl] ++ importKw ++ [nl, nl] ++
          stripFences raw ++ [nl])) := by simp
    refine countPos_trim_one ?_ ?_
    · exact countPos_insertShape hid hp
    · rw [hre]
      exact contains_pkg_trim_of_shape
        ⟨d, List.mem_append.mpr (Or.inl (List.mem_cons_self d r)), hd⟩

theorem cleanup_contains_testing {raw name : Str} (hne : name ≠ [])
    (hid : ∀ c ∈ name, c.isAlphanum = true)
    (hp : goContains pkgSp (stripFences raw) = false) :
    goContains testingQ (cleanupGeneratedCode raw name) = true := by
  by_cases ht : goContains testingQ (stripFences raw) = true
  · rw [cleanup_eq_keep hp ht]
    exact contains_testing_trim (prepend_contains_testing name ht)
  · rw [Bool.not_eq_true] at ht
    rw [cleanup_eq_insert hne hid hp ht]
    apply contains_testing_trim
    rw [goContains_iff_occurs]
    have h1 : testingQ <:+: importKw := goContains_iff_occurs.mp (by decide)
    refine h1.trans ⟨pkgSp ++ name ++ [nl, nl],
      [nl, nl] ++ stripFences raw ++ [nl], ?_⟩
    simp

theorem cleanup_preserves_testing {raw name : Str}
    (ht : goContains testingQ (stripFences raw) = true) :
    goContains testingQ (cleanupGeneratedCode raw name) = true := by
  by_cases hp : goContains pkgSp (stripFences raw) = true
  · rw [cleanup_eq_id hp ht]
    exact contains_testing_trim ht
  · rw [Bool.not_eq_true] at hp
    rw [cleanup_eq_keep hp ht]
    exact contains_testing_trim (prepend_contains_testing name ht)

theorem cleanup_no_fence {raw name : Str}
    (hid : ∀ c ∈ name, c.isAlphanum = true) :
    goContains fence (cleanupGeneratedCode raw name) = false := by
  have hf2 := stripFences_no_fence raw
  by_cases hp : goContains pkgSp (stripFences raw) = true
  · by_cases ht : goContains testingQ (stripFences raw) = true
    · rw [cleanup_eq_id hp ht]
      exact goContains_false_of_infix (trimSpaceS_piece _) hf2
    · rw [Bool.not_eq_true] at ht
      rw [cleanup_eq_insP hp ht]
      exact goContains_false_of_infix (trimSpaceS_piece _)
        (insertTesting_no_fence hf2)
  · rw [Bool.not_eq_true] at hp
    have hf3 := prepend_no_fence hid hf2
    by_cases ht : goContains testingQ (stripFences raw) = true
    · rw [cleanup_eq_keep hp ht]
      exact goContains_false_of_infix (trimSpaceS_piece _) hf3
    · rw [Bool.not_eq_true] at ht
      have h2 := prepend_no_testing hid ht
      have h2' : goContains testingQ
          (pkgSp ++ (name ++ nl :: nl :: stripFences raw)) = false := by
        simpa using h2
      have hcl : cleanupGeneratedCode raw name =
          trimSpaceS (insertTesting (pkgSp ++ name ++ [nl, nl] ++
            stripFences raw)) := by
        simp [cleanupGeneratedCode, hp, h2']
      rw [hcl]
      exact goContains_false_of_infix (trimSpaceS_piece _)
        (insertTesting_no_fence hf3)

/-- Claim C3 (amended): for every raw generated text and every nonempty
alphanumeric package name, the cleanup output contains no code-fence
marker; when the fence-stripped text does not contain the substring
`package `, the output contains exactly one occurrence of `package ` and at
least one `"testing"` reference, and — when the stripped text also lacks
that reference — the output is exactly the trimmed text consisting of the
package declaration, the testing import inserted immediately after the
package declaration line, and the stripped text; and whenever the stripped
text already references `"testing"`, so does the output.  (The original
claim's unconditional "exactly one package declaration and at least one
testing reference" is refuted by `cleanupGeneratedCode_cex`.) -/
theorem cleanupGeneratedCode_spec (raw name : Str) (hne : name ≠ [])
    (hid : ∀ c ∈ name, c.isAlphanum = true) :
    goContains fence (cleanupGeneratedCode raw name) = false ∧
    (goContains pkgSp (stripFences raw) = false →
      countPos pkgSp (cleanupGeneratedCode raw name) = 1 ∧
      goContains testingQ (cleanupGeneratedCode raw name) = true ∧
      (goContains testingQ (stripFences raw) = false →
        cleanupGeneratedCode raw name =
          trimSpaceS (pkgSp ++ name ++ [nl, nl] ++ importKw ++ [nl, nl] ++
            stripFences raw ++ [nl]))) ∧
    (goContains testingQ (stripFences raw) = true →
      goContains testingQ (cleanupGeneratedCode raw name) = true) :=
  ⟨cleanup_no_fence hid,
   fun hp => ⟨cleanup_countPos_one hne hid hp,
     cleanup_contains_testing hne hid hp,
     fun hnt => cleanup_eq_insert hne hid hp hnt⟩,
   fun ht => cleanup_preserves_testing ht⟩

/-- Concrete raw text for the claim C3 witness. -/
def wRawC3 : Str := ("func add(a int) int").data

/-- Concrete package name for the claim C3 witness and counterexample. -/
def wNameC3 : Str := ("demo").data

/-- Witness for the amended claim C3 at a concrete raw text and package
name. -/
theorem cleanupGeneratedCode_spec_witness :
    wNameC3 ≠ [] ∧ (∀ c ∈ wNameC3, c.isAlphanum = true) ∧
    (goContains fence (cleanupGeneratedCode wRawC3 wNameC3) = false ∧
    (goContains pkgSp (stripFences wRawC3) = false →
      countPos pkgSp (cleanupGeneratedCode wRawC3 wNameC3) = 1 ∧
      goContains testingQ (cleanupGeneratedCode wRawC3 wNameC3) = true ∧
      (goContains testingQ (stripFences wRawC3) = false →
        cleanupGeneratedCode wRawC3 wNameC3 =
          trimSpaceS (pkgSp ++ wNameC3 ++ [nl, nl] ++ importKw ++ [nl, nl] ++
            stripFences wRawC3 ++ [nl]))) ∧
    (goContains testingQ (stripFences wRawC3) = true →
      goContains testingQ (cleanupGeneratedCode wRawC3 wNameC3) = true)) :=
  ⟨by decide, by decide,
   cleanupGeneratedCode_spec wRawC3 wNameC3 (by decide) (by decide)⟩

/-- Concrete raw text refuting claim C3 as stated: it contains `package `
only mid-line, so the cleanup neither prepends a declaration nor inserts
the testing import. -/
def cexRawC3 : Str := ("x package y").data

/-- Claim C3 counterexample: for the raw text `x package y` the cleanup
output is the unchanged text, which contains no reference to the
testing-framework dependency and no package declaration at a line start,
refuting the claim that every cleanup output references the testing
dependency. -/
theorem cleanupGeneratedCode_cex :
    cleanupGeneratedCode cexRawC3 wNameC3 = cexRawC3 ∧
    goContains testingQ (cleanupGeneratedCode cexRawC3 wNameC3) = false := by
  constructor
  · decide
  · decide

end LFX
